import Mathlib

/-!
Verification of the PTY stream-to-styled-text pipeline of YATE
(`src/main.rs`).  The parser `TerminalApp::append_new_output` is embedded
shallowly: bytes are `Nat` (the Rust code uses `u8`), the decoded text of a
run is kept as the raw byte list together with the lossy UTF-8 decoding
function `utf8Lossy` that models Rust's `String::from_utf8_lossy` (the
function actually applied when a run is handed to the `LayoutJob`).
Colors are kept symbolic: the code only ever assigns one of the fields of
its `Colors` palette, so a run's color is faithfully represented by which
palette slot was assigned (codes 0, 37 and 97 all assign `colors.white`,
hence a single `white` slot).
-/

namespace YATE

/-- Symbolic palette slots assignable to the foreground color by the SGR
handler in `append_new_output`.  `white` is the slot used by codes 0, 37
and 97; `grey` is the slot used by code 90. -/
inductive Color where
  | white | black | red | green | yellow | blue | magenta | cyan | grey
  | brightRed | brightGreen | brightYellow | brightBlue | brightMagenta | brightCyan
deriving DecidableEq, Repr

/-- The mutable format state carried by the app: `current_format.color`
and the underline stroke (modelled as a `Bool`: the code only ever assigns
`egui::Stroke::NONE`, i.e. `false`).  Fields of `TextFormat` the parser
never touches (font, background, ...) are omitted. -/
structure FormatState where
  color : Color
  underline : Bool
deriving DecidableEq, Repr

/-- One section appended to the `LayoutJob`: the raw bytes handed to
`String::from_utf8_lossy` and the format snapshot cloned at append time. -/
structure StyledRun where
  text : List Nat
  fmt : FormatState
deriving DecidableEq, Repr

/-- The Unicode replacement character U+FFFD used by lossy decoding. -/
def replChar : Char := Char.ofNat 0xFFFD

/-- A UTF-8 continuation byte (0x80..=0xBF). -/
def isCont (b : Nat) : Bool := 0x80 ≤ b && b ≤ 0xBF

/-- Admissible second byte of a three-byte sequence, per Rust's UTF-8
validation: `0xE0` requires `0xA0..=0xBF`, `0xED` requires `0x80..=0x9F`
(excluding surrogates), otherwise any continuation byte. -/
def utf8Second3Ok (b b2 : Nat) : Bool :=
  if b = 0xE0 then 0xA0 ≤ b2 && b2 ≤ 0xBF
  else if b = 0xED then 0x80 ≤ b2 && b2 ≤ 0x9F
  else isCont b2

/-- Admissible second byte of a four-byte sequence, per Rust's UTF-8
validation: `0xF0` requires `0x90..=0xBF`, `0xF4` requires `0x80..=0x8F`
(capping at U+10FFFF), otherwise any continuation byte. -/
def utf8Second4Ok (b b2 : Nat) : Bool :=
  if b = 0xF0 then 0x90 ≤ b2 && b2 ≤ 0xBF
  else if b = 0xF4 then 0x80 ≤ b2 && b2 ≤ 0x8F
  else isCont b2

/-- Rust's `String::from_utf8_lossy`: decode UTF-8, replacing each maximal
invalid subpart (and an incomplete trailing sequence) by one U+FFFD. -/
def utf8Lossy : List Nat → List Char
  | [] => []
  | b :: rest =>
    if b ≤ 0x7F then
      Char.ofNat b :: utf8Lossy rest
    else if 0xC2 ≤ b ∧ b ≤ 0xDF then
      match rest with
      | [] => [replChar]
      | b2 :: rest2 =>
        if isCont b2 then
          Char.ofNat ((b - 0xC0) * 0x40 + (b2 - 0x80)) :: utf8Lossy rest2
        else replChar :: utf8Lossy (b2 :: rest2)
    else if 0xE0 ≤ b ∧ b ≤ 0xEF then
      match rest with
      | [] => [replChar]
      | b2 :: rest2 =>
        if utf8Second3Ok b b2 then
          match rest2 with
          | [] => [replChar]
          | b3 :: rest3 =>
            if isCont b3 then
              Char.ofNat ((b - 0xE0) * 0x1000 + (b2 - 0x80) * 0x40 + (b3 - 0x80))
                :: utf8Lossy rest3
            else replChar :: utf8Lossy (b3 :: rest3)
        else replChar :: utf8Lossy (b2 :: rest2)
    else if 0xF0 ≤ b ∧ b ≤ 0xF4 then
      match rest with
      | [] => [replChar]
      | b2 :: rest2 =>
        if utf8Second4Ok b b2 then
          match rest2 with
          | [] => [replChar]
          | b3 :: rest3 =>
            if isCont b3 then
              match rest3 with
              | [] => [replChar]
              | b4 :: rest4 =>
                if isCont b4 then
                  Char.ofNat ((b - 0xF0) * 0x40000 + (b2 - 0x80) * 0x1000
                      + (b3 - 0x80) * 0x40 + (b4 - 0x80)) :: utf8Lossy rest4
                else replChar :: utf8Lossy (b4 :: rest4)
            else replChar :: utf8Lossy (b3 :: rest3)
        else replChar :: utf8Lossy (b2 :: rest2)
    else replChar :: utf8Lossy rest

/-- ASCII alphabetic test, `u8::is_ascii_alphabetic`. -/
def isAsciiAlpha (b : Nat) : Bool :=
  (0x41 ≤ b && b ≤ 0x5A) || (0x61 ≤ b && b ≤ 0x7A)

/-- Value of a list of decimal digit characters, most significant first,
accumulated exactly as Rust's integer `from_str` does. -/
def digitsToNat (cs : List Char) : Nat :=
  cs.foldl (fun a c => a * 10 + (c.toNat - 48)) 0

/-- Rust's `str::parse::<u32>`: an optional leading `+`, then a nonempty
run of ASCII decimal digits, failing on any other character or on values
exceeding `u32::MAX`. -/
def parseU32 (cs : List Char) : Option Nat :=
  let ds := match cs with
    | '+' :: rest => rest
    | _ => cs
  if ds ≠ [] ∧ ds.all Char.isDigit then
    let v := digitsToNat ds
    if v ≤ 4294967295 then some v else none
  else none

/-- Rust's `str::split(';')`: every separator splits, empty segments are
kept, the empty input yields one empty segment. -/
def splitSep (sep : Char) : List Char → List (List Char)
  | [] => [[]]
  | c :: cs =>
    if c = sep then [] :: splitSep sep cs
    else
      match splitSep sep cs with
      | [] => [[c]]
      | p :: ps => (c :: p) :: ps

/-- Application of one parsed SGR numeric code to the format state: the
`match num` block of `append_new_output`.  Code 0 resets color to the
`white` slot and clears underline; 30..=37 and 90..=97 select palette
slots; every other number is a no-op. -/
def applyCode (f : FormatState) (n : Nat) : FormatState :=
  match n with
  | 0 => { f with color := .white, underline := false }
  | 30 => { f with color := .black }
  | 31 => { f with color := .red }
  | 32 => { f with color := .green }
  | 33 => { f with color := .yellow }
  | 34 => { f with color := .blue }
  | 35 => { f with color := .magenta }
  | 36 => { f with color := .cyan }
  | 37 => { f with color := .white }
  | 90 => { f with color := .grey }
  | 91 => { f with color := .brightRed }
  | 92 => { f with color := .brightGreen }
  | 93 => { f with color := .brightYellow }
  | 94 => { f with color := .brightBlue }
  | 95 => { f with color := .brightMagenta }
  | 96 => { f with color := .brightCyan }
  | 97 => { f with color := .white }
  | _ => f

/-- One `split(';')` segment: parse as `u32` and apply, or ignore. -/
def applySegment (f : FormatState) (part : List Char) : FormatState :=
  match parseU32 part with
  | some n => applyCode f n
  | none => f

/-- The parameter block between `[` and the final `m`, split on `;` and
applied left to right. -/
def applySgrParams (f : FormatState) (codeStr : List Char) : FormatState :=
  (splitSep ';' codeStr).foldl applySegment f

/-- Characters strictly after the first `[` of the decoded sequence
(Rust `str::find('[')` followed by slicing from `start_index + 1`). -/
def dropThroughBracket : List Char → Option (List Char)
  | [] => none
  | c :: cs => if c = '[' then some cs else dropThroughBracket cs

/-- Handling of a terminated escape sequence `buf` (whose last byte is
ASCII alphabetic): decode lossily; if the decoded string ends with `m`,
take the slice between the first `[` and the final `m` and apply it as
SGR parameters; otherwise (any other terminator, or no `[`) leave the
format state unchanged.  The final `m` is one byte, so slicing to
`len - 1` is dropping the last character. -/
def handleTerminated (f : FormatState) (buf : List Nat) : FormatState :=
  let s := utf8Lossy buf
  if s.getLast? = some 'm' then
    match dropThroughBracket s with
    | some tail => applySgrParams f tail.dropLast
    | none => f
  else f

/-- The full state threaded through one call of `append_new_output`:
`current_format` and `seq_buffer` (the source's `partial_char_buffer`
field) persist across calls; `pending` is the local `text_to_append`
accumulator; `runs` models the sections of `layout_job`. -/
structure ParseState where
  current_format : FormatState
  seq_buffer : List Nat
  pending : List Nat
  runs : List StyledRun
deriving DecidableEq, Repr

/-- Flush `text_to_append` as a run if non-empty (`layout_job.append`
with the cloned current format), exactly as each flush site does. -/
def flushPending (s : ParseState) : ParseState :=
  if s.pending = [] then s
  else { s with runs := s.runs ++ [⟨s.pending, s.current_format⟩], pending := [] }

/-- The per-byte `match byte` of `append_new_output`, arm for arm:
ESC flushes pending text and starts/extends the sequence buffer; `[`
directly after ESC extends it; CR and LF flush and emit a single-byte
run; any byte while the sequence buffer is non-empty extends it and, if
ASCII alphabetic, terminates the sequence; otherwise the byte joins the
pending text (the source's dead flush of the sequence buffer in this
last arm is kept verbatim, its flush-then-push written as one record
update per branch of its emptiness test). -/
def processByte (s : ParseState) (b : Nat) : ParseState :=
  if b = 0x1B then
    { flushPending s with seq_buffer := (flushPending s).seq_buffer ++ [b] }
  else if b = 0x5B ∧ s.seq_buffer.getLast? = some 0x1B then
    { s with seq_buffer := s.seq_buffer ++ [b] }
  else if b = 0x0A ∨ b = 0x0D then
    { flushPending s with
        runs := (flushPending s).runs ++ [⟨[b], (flushPending s).current_format⟩] }
  else if s.seq_buffer ≠ [] then
    if isAsciiAlpha b then
      { s with current_format := handleTerminated s.current_format (s.seq_buffer ++ [b]),
               seq_buffer := [] }
    else { s with seq_buffer := s.seq_buffer ++ [b] }
  else
    if s.seq_buffer.isEmpty then
      { s with pending := s.pending ++ [b] }
    else
      { s with runs := s.runs ++ [⟨s.seq_buffer, s.current_format⟩], seq_buffer := [],
               pending := s.pending ++ [b] }

/-- The persistent state of `TerminalApp` relevant to the parser: the
`text_to_append` accumulator is local to each call and so absent here. -/
structure AppState where
  current_format : FormatState
  seq_buffer : List Nat
  runs : List StyledRun
deriving DecidableEq, Repr

/-- Enter a call of `append_new_output`: `text_to_append` starts empty. -/
def toP (s : AppState) : ParseState :=
  ⟨s.current_format, s.seq_buffer, [], s.runs⟩

/-- Leave a call of `append_new_output`, dropping the (flushed, empty)
local accumulator. -/
def ofP (t : ParseState) : AppState :=
  ⟨t.current_format, t.seq_buffer, t.runs⟩

/-- One call of `TerminalApp::append_new_output`: process every byte,
then flush any remaining pending text as a final run. -/
def append_new_output (s : AppState) (new_output : List Nat) : AppState :=
  ofP (flushPending (new_output.foldl processByte (toP s)))

/-- Several consumer ticks: each drained chunk is handed to
`append_new_output` in order (the drain loop in `update`). -/
def feedChunks (s : AppState) (chunks : List (List Nat)) : AppState :=
  chunks.foldl append_new_output s

/-- The state the app starts in: color `colors.white`, underline off
(`TextFormat` default stroke), empty sequence buffer, empty layout job. -/
def initialApp : AppState :=
  ⟨⟨.white, false⟩, [], []⟩

/-- Flatten a run list to its format-tagged byte stream: every byte of
every run paired with that run's format, in emission order. -/
def styledBytes (rs : List StyledRun) : List (Nat × FormatState) :=
  (rs.map (fun r => r.text.map (fun b => (b, r.fmt)))).flatten

/-- The format-tagged bytes a parse state accounts for: the flattened
runs plus the pending text, which will be flushed under the current
format (the format cannot change while text is pending). -/
def emitted (t : ParseState) : List (Nat × FormatState) :=
  styledBytes t.runs ++ t.pending.map (fun b => (b, t.current_format))

/-- Invariant of every reachable parse state: while an escape sequence
is in progress, the pending text accumulator is empty (every arm that
starts a sequence flushes it first). -/
def pendInv (t : ParseState) : Prop := t.seq_buffer ≠ [] → t.pending = []

/-- One consumer tick at the `ParseState` level. -/
def tickP (t : ParseState) (c : List Nat) : ParseState :=
  flushPending (c.foldl processByte t)

/-- A sequence of consumer ticks at the `ParseState` level. -/
def chunksP (t : ParseState) (cs : List (List Nat)) : ParseState :=
  cs.foldl tickP t

/-- The per-byte arm of `append_new_output` with the unreachable flush
of the sequence buffer in the final arm removed; used to state that the
two functions coincide. -/
def processByteLive (s : ParseState) (b : Nat) : ParseState :=
  if b = 0x1B then
    { flushPending s with seq_buffer := (flushPending s).seq_buffer ++ [b] }
  else if b = 0x5B ∧ s.seq_buffer.getLast? = some 0x1B then
    { s with seq_buffer := s.seq_buffer ++ [b] }
  else if b = 0x0A ∨ b = 0x0D then
    { flushPending s with
        runs := (flushPending s).runs ++ [⟨[b], (flushPending s).current_format⟩] }
  else if s.seq_buffer ≠ [] then
    if isAsciiAlpha b then
      { s with current_format := handleTerminated s.current_format (s.seq_buffer ++ [b]),
               seq_buffer := [] }
    else { s with seq_buffer := s.seq_buffer ++ [b] }
  else
    { s with pending := s.pending ++ [b] }

/-- The defined transitions of the per-byte state machine, one
constructor per arm of the source's `match byte`, with each arm's guard
(and the failure of the earlier arms' guards where the patterns alone do
not exclude them). -/
inductive ByteStep : ParseState → Nat → ParseState → Prop where
  | esc (s : ParseState) :
      ByteStep s 0x1B
        { flushPending s with seq_buffer := (flushPending s).seq_buffer ++ [0x1B] }
  | csi (s : ParseState) (h : s.seq_buffer.getLast? = some 0x1B) :
      ByteStep s 0x5B { s with seq_buffer := s.seq_buffer ++ [0x5B] }
  | lineBreak (s : ParseState) (b : Nat) (hb : b = 0x0A ∨ b = 0x0D) :
      ByteStep s b
        { flushPending s with
            runs := (flushPending s).runs ++ [⟨[b], (flushPending s).current_format⟩] }
  | seqEnd (s : ParseState) (b : Nat) (h1 : b ≠ 0x1B)
      (h2 : ¬(b = 0x5B ∧ s.seq_buffer.getLast? = some 0x1B))
      (h3 : ¬(b = 0x0A ∨ b = 0x0D)) (h4 : s.seq_buffer ≠ [])
      (h5 : isAsciiAlpha b = true) :
      ByteStep s b
        { s with current_format := handleTerminated s.current_format (s.seq_buffer ++ [b]),
                 seq_buffer := [] }
  | seqPush (s : ParseState) (b : Nat) (h1 : b ≠ 0x1B)
      (h2 : ¬(b = 0x5B ∧ s.seq_buffer.getLast? = some 0x1B))
      (h3 : ¬(b = 0x0A ∨ b = 0x0D)) (h4 : s.seq_buffer ≠ [])
      (h5 : isAsciiAlpha b = false) :
      ByteStep s b { s with seq_buffer := s.seq_buffer ++ [b] }
  | plain (s : ParseState) (b : Nat) (h1 : b ≠ 0x1B)
      (h3 : ¬(b = 0x0A ∨ b = 0x0D)) (h4 : s.seq_buffer = []) :
      ByteStep s b { s with pending := s.pending ++ [b] }

/-- An operation on the `SharedByteBuffer`: the Reader Thread appending a
chunk under the lock (`output.extend_from_slice`), or the consumer
draining everything under the lock (`mem::take`). -/
inductive BufOp where
  | append (chunk : List Nat)
  | drain
deriving Repr

/-- Execute a serialised sequence of buffer operations starting from
`buf`, returning the final buffer content and the drained chunks in
order.  The mutex makes every interleaving a serialisation. -/
def runOps : List Nat → List BufOp → List Nat × List (List Nat)
  | buf, [] => (buf, [])
  | buf, BufOp.append c :: ops => runOps (buf ++ c) ops
  | buf, BufOp.drain :: ops =>
    let r := runOps [] ops
    (r.1, buf :: r.2)

/-- The bytes appended by the Reader Thread over an operation sequence,
in order. -/
def appendedOf : List BufOp → List Nat
  | [] => []
  | BufOp.append c :: ops => c ++ appendedOf ops
  | BufOp.drain :: ops => appendedOf ops

/-- The new format after one byte, as a function of the current format,
the sequence buffer and the byte alone (proof support: the per-byte arms
only consult these). -/
def stepFmt (f : FormatState) (q : List Nat) (b : Nat) : FormatState :=
  if b = 0x1B then f
  else if b = 0x5B ∧ q.getLast? = some 0x1B then f
  else if b = 0x0A ∨ b = 0x0D then f
  else if q ≠ [] then
    if isAsciiAlpha b then handleTerminated f (q ++ [b]) else f
  else f

/-- The new sequence buffer after one byte, as a function of the old
buffer and the byte alone (proof support). -/
def stepSeq (q : List Nat) (b : Nat) : List Nat :=
  if b = 0x1B then q ++ [b]
  else if b = 0x5B ∧ q.getLast? = some 0x1B then q ++ [b]
  else if b = 0x0A ∨ b = 0x0D then q
  else if q ≠ [] then
    if isAsciiAlpha b then [] else q ++ [b]
  else q

/-- The format-tagged bytes one byte adds to the output stream, as a
function of the current format, the sequence buffer and the byte alone
(proof support). -/
def stepOut (f : FormatState) (q : List Nat) (b : Nat) : List (Nat × FormatState) :=
  if b = 0x1B then []
  else if b = 0x5B ∧ q.getLast? = some 0x1B then []
  else if b = 0x0A ∨ b = 0x0D then [(b, f)]
  else if q ≠ [] then []
  else [(b, f)]

/-- No underline anywhere: the current format has underline off and so
does every emitted run (proof support for the underline invariant). -/
def underFree (t : ParseState) : Prop :=
  t.current_format.underline = false ∧ ∀ x ∈ t.runs, x.fmt.underline = false

theorem flushPending_format (t : ParseState) :
    (flushPending t).current_format = t.current_format := by
  unfold flushPending; split <;> rfl

theorem flushPending_seq (t : ParseState) :
    (flushPending t).seq_buffer = t.seq_buffer := by
  unfold flushPending; split <;> rfl

theorem flushPending_pending (t : ParseState) :
    (flushPending t).pending = [] := by
  unfold flushPending; split
  · assumption
  · rfl

theorem styledBytes_append (a b : List StyledRun) :
    styledBytes (a ++ b) = styledBytes a ++ styledBytes b := by
  simp [styledBytes]

theorem emitted_flushPending (t : ParseState) :
    emitted (flushPending t) = emitted t := by
  unfold flushPending
  split
  · rfl
  · simp_all [emitted, styledBytes_append, styledBytes]

theorem pendInv_flushPending (t : ParseState) : pendInv (flushPending t) := by
  intro _
  exact flushPending_pending t

theorem pendInv_processByte (t : ParseState) (b : Nat) (h : pendInv t) :
    pendInv (processByte t b) := by
  unfold processByte
  split_ifs with h1 h2 h3 h4 h5 h6
  · intro _; exact flushPending_pending t
  · intro _; exact h (by simp [← List.getLast?_isSome, h2.2])
  · intro _; exact flushPending_pending t
  · intro _; exact h h4
  · intro _; exact h h4
  · intro hne; simp [List.isEmpty_iff.mp h6] at hne
  · exact absurd (List.isEmpty_iff.mpr (not_not.mp h4)) h6

theorem pendInv_foldl (c : List Nat) :
    ∀ t : ParseState, pendInv t → pendInv (c.foldl processByte t) := by
  induction c with
  | nil => intro t h; exact h
  | cons b c ih => intro t h; exact ih _ (pendInv_processByte t b h)

theorem emitted_set_seq (t : ParseState) (q : List Nat) :
    emitted { t with seq_buffer := q } = emitted t := rfl

theorem emitted_of_pending_nil (t : ParseState) (h : t.pending = []) :
    emitted t = styledBytes t.runs := by
  simp [emitted, h]

theorem emitted_crlf (t : ParseState) (b : Nat) :
    emitted { flushPending t with
        runs := (flushPending t).runs ++ [⟨[b], (flushPending t).current_format⟩] } =
      emitted t ++ [(b, t.current_format)] := by
  have h1 := emitted_flushPending t
  rw [emitted_of_pending_nil _ (flushPending_pending t)] at h1
  show styledBytes ((flushPending t).runs ++ [⟨[b], (flushPending t).current_format⟩]) ++
      (flushPending t).pending.map _ = _
  rw [flushPending_pending, flushPending_format, styledBytes_append, h1]
  simp [styledBytes]

theorem processByte_format (t : ParseState) (b : Nat) :
    (processByte t b).current_format = stepFmt t.current_format t.seq_buffer b := by
  unfold processByte stepFmt
  split_ifs with h1 h2 h3 h4 h5 h6 <;> simp [flushPending_format]

theorem processByte_seq (t : ParseState) (b : Nat) :
    (processByte t b).seq_buffer = stepSeq t.seq_buffer b := by
  unfold processByte stepSeq
  split_ifs with h1 h2 h3 h4 h5 h6 <;> simp [flushPending_seq, not_not.mp]
  · exact not_not.mp h4

theorem processByte_emitted (t : ParseState) (b : Nat) (hp : pendInv t) :
    emitted (processByte t b) = emitted t ++ stepOut t.current_format t.seq_buffer b := by
  unfold processByte stepOut
  split_ifs with h1 h2 h3 h4 h5 h6
  · rw [emitted_set_seq, emitted_flushPending, List.append_nil]
  · rw [emitted_set_seq, List.append_nil]
  · exact emitted_crlf t b
  · have hpnil : t.pending = [] := hp h4
    simp [emitted, hpnil]
  · rw [emitted_set_seq, List.append_nil]
  · simp [emitted]
  · exact absurd (List.isEmpty_iff.mpr (not_not.mp h4)) h6

theorem processByte_congr (u v : ParseState) (b : Nat)
    (hf : u.current_format = v.current_format) (hq : u.seq_buffer = v.seq_buffer)
    (he : emitted u = emitted v) (hu : pendInv u) (hv : pendInv v) :
    (processByte u b).current_format = (processByte v b).current_format ∧
    (processByte u b).seq_buffer = (processByte v b).seq_buffer ∧
    emitted (processByte u b) = emitted (processByte v b) := by
  refine ⟨?_, ?_, ?_⟩
  · rw [processByte_format, processByte_format, hf, hq]
  · rw [processByte_seq, processByte_seq, hq]
  · rw [processByte_emitted u b hu, processByte_emitted v b hv, he, hf, hq]

theorem foldl_congr (c : List Nat) :
    ∀ u v : ParseState, u.current_format = v.current_format →
      u.seq_buffer = v.seq_buffer → emitted u = emitted v → pendInv u → pendInv v →
      (c.foldl processByte u).current_format = (c.foldl processByte v).current_format ∧
      (c.foldl processByte u).seq_buffer = (c.foldl processByte v).seq_buffer ∧
      emitted (c.foldl processByte u) = emitted (c.foldl processByte v) := by
  induction c with
  | nil => intro u v hf hq he _ _; exact ⟨hf, hq, he⟩
  | cons b c ih =>
    intro u v hf hq he hu hv
    obtain ⟨hf', hq', he'⟩ := processByte_congr u v b hf hq he hu hv
    exact ih _ _ hf' hq' he' (pendInv_processByte u b hu) (pendInv_processByte v b hv)

theorem chunksP_pending (cs : List (List Nat)) :
    ∀ t : ParseState, t.pending = [] → (chunksP t cs).pending = [] := by
  induction cs with
  | nil => intro t h; exact h
  | cons c cs ih => intro t _; exact ih (tickP t c) (flushPending_pending _)

theorem chunksP_join (cs : List (List Nat)) :
    ∀ t : ParseState, pendInv t →
      (chunksP t cs).current_format = (cs.flatten.foldl processByte t).current_format ∧
      (chunksP t cs).seq_buffer = (cs.flatten.foldl processByte t).seq_buffer ∧
      emitted (chunksP t cs) = emitted (cs.flatten.foldl processByte t) := by
  induction cs with
  | nil => intro t _; exact ⟨rfl, rfl, rfl⟩
  | cons c cs ih =>
    intro t h
    have hft : pendInv (c.foldl processByte t) := pendInv_foldl c t h
    have h1 := foldl_congr cs.flatten (tickP t c) (c.foldl processByte t)
      (flushPending_format _) (flushPending_seq _) (emitted_flushPending _)
      (pendInv_flushPending _) hft
    have h2 := ih (tickP t c) (pendInv_flushPending _)
    simp only [chunksP, List.foldl_cons, List.flatten_cons, List.foldl_append]
    simp only [chunksP] at h2
    exact ⟨h2.1.trans h1.1, h2.2.1.trans h1.2.1, h2.2.2.trans h1.2.2⟩

theorem toP_ofP (t : ParseState) (h : t.pending = []) : toP (ofP t) = t := by
  cases t
  simp only [toP, ofP] at h ⊢
  rw [h]

theorem append_bridge (s : AppState) (c : List Nat) :
    toP (append_new_output s c) = tickP (toP s) c := by
  unfold append_new_output tickP
  exact toP_ofP _ (flushPending_pending _)

theorem feedChunks_bridge (cs : List (List Nat)) :
    ∀ s : AppState, toP (feedChunks s cs) = chunksP (toP s) cs := by
  induction cs with
  | nil => intro s; rfl
  | cons c cs ih =>
    intro s
    simp only [feedChunks, List.foldl_cons, chunksP]
    calc toP ((feedChunks (append_new_output s c) cs))
        = chunksP (toP (append_new_output s c)) cs := ih _
      _ = cs.foldl tickP (tickP (toP s) c) := by rw [append_bridge]; rfl

/-- C1, counterexample: the StyledRun sequence is not invariant under
partitioning the byte stream into chunks.  Feeding the stream `"ab"` as
the two chunks `"a"`, `"b"` appends two runs, while feeding it as one
chunk appends the single run `"ab"`, so the resulting states differ. -/
theorem c1_counterexample :
    feedChunks initialApp [[0x61], [0x62]] ≠ append_new_output initialApp [0x61, 0x62] := by
  decide

/-- C1, amended: for every starting app state, every way of partitioning
a byte stream into consecutive chunks fed across ticks yields the same
final FormatState, the same PartialSequenceBuffer, and the same
format-tagged byte stream (the concatenation over runs of their bytes,
each paired with the run's format) as feeding the stream in one chunk;
only the run boundaries may differ. -/
theorem c1_split_invariance (s : AppState) (cs : List (List Nat)) :
    (feedChunks s cs).current_format = (append_new_output s cs.flatten).current_format ∧
    (feedChunks s cs).seq_buffer = (append_new_output s cs.flatten).seq_buffer ∧
    styledBytes (feedChunks s cs).runs = styledBytes (append_new_output s cs.flatten).runs := by
  have hmain := chunksP_join cs (toP s) (fun _ => rfl)
  have hb : toP (feedChunks s cs) = chunksP (toP s) cs := feedChunks_bridge cs s
  have ha : toP (append_new_output s cs.flatten) = tickP (toP s) cs.flatten :=
    append_bridge s cs.flatten
  have hpend : (chunksP (toP s) cs).pending = [] := chunksP_pending cs (toP s) rfl
  refine ⟨?_, ?_, ?_⟩
  · have h : (toP (feedChunks s cs)).current_format =
        (toP (append_new_output s cs.flatten)).current_format := by
      rw [hb, ha]
      rw [hmain.1]
      exact (flushPending_format _).symm
    exact h
  · have h : (toP (feedChunks s cs)).seq_buffer =
        (toP (append_new_output s cs.flatten)).seq_buffer := by
      rw [hb, ha]
      rw [hmain.2.1]
      exact (flushPending_seq _).symm
    exact h
  · have h : styledBytes (toP (feedChunks s cs)).runs =
        styledBytes (toP (append_new_output s cs.flatten)).runs := by
      rw [hb, ha]
      unfold tickP
      rw [← emitted_of_pending_nil _ hpend, ← emitted_of_pending_nil _ (flushPending_pending _)]
      rw [hmain.2.2]
      exact (emitted_flushPending _).symm
    exact h

/-- C2, counterexample: after `ESC [ 3 1 m h i` the foreground color set
by the parser is red (SGR code 31), not green as the claim states. -/
theorem c2_counterexample :
    (append_new_output initialApp [0x1B, 0x5B, 0x33, 0x31, 0x6D, 0x68, 0x69]).current_format.color
        = Color.red ∧
    (append_new_output initialApp [0x1B, 0x5B, 0x33, 0x31, 0x6D, 0x68, 0x69]).current_format.color
        ≠ Color.green := by
  decide

/-- C2, amended: feeding `ESC [ 3` in one tick and `1 m hi` in the next
produces exactly the state of feeding `ESC [ 3 1 m h i` in a single tick:
foreground set to red (code 31) and one run `"hi"`; after the first tick
the sequence buffer holds `ESC [ 3` verbatim and no run was appended. -/
theorem c2_carry_over (s : AppState) (h : s.seq_buffer = []) :
    feedChunks s [[0x1B, 0x5B, 0x33], [0x31, 0x6D, 0x68, 0x69]] =
      append_new_output s [0x1B, 0x5B, 0x33, 0x31, 0x6D, 0x68, 0x69] ∧
    (append_new_output s [0x1B, 0x5B, 0x33]).seq_buffer = [0x1B, 0x5B, 0x33] ∧
    (append_new_output s [0x1B, 0x5B, 0x33]).runs = s.runs ∧
    append_new_output s [0x1B, 0x5B, 0x33, 0x31, 0x6D, 0x68, 0x69] =
      ⟨⟨.red, s.current_format.underline⟩, [],
        s.runs ++ [⟨[0x68, 0x69], ⟨.red, s.current_format.underline⟩⟩]⟩ := by
  obtain ⟨⟨c, u⟩, q, r⟩ := s
  have hq : q = [] := h
  subst hq
  refine ⟨?_, ?_, ?_, ?_⟩ <;>
    simp [feedChunks, append_new_output, toP, ofP, processByte, flushPending,
      handleTerminated, utf8Lossy, isAsciiAlpha, applySgrParams, splitSep, applySegment,
      parseU32, digitsToNat, applyCode, dropThroughBracket, isCont, replChar]

/-- Witness for C2: the carry-over property applied to the initial app
state. -/
theorem c2_carry_over_witness :
    feedChunks initialApp [[0x1B, 0x5B, 0x33], [0x31, 0x6D, 0x68, 0x69]] =
      append_new_output initialApp [0x1B, 0x5B, 0x33, 0x31, 0x6D, 0x68, 0x69] ∧
    (append_new_output initialApp [0x1B, 0x5B, 0x33]).seq_buffer = [0x1B, 0x5B, 0x33] ∧
    (append_new_output initialApp [0x1B, 0x5B, 0x33]).runs = initialApp.runs ∧
    append_new_output initialApp [0x1B, 0x5B, 0x33, 0x31, 0x6D, 0x68, 0x69] =
      ⟨⟨.red, initialApp.current_format.underline⟩, [],
        initialApp.runs ++ [⟨[0x68, 0x69], ⟨.red, initialApp.current_format.underline⟩⟩]⟩ :=
  c2_carry_over initialApp rfl

theorem applyCode_unknown (f : FormatState) (n : Nat) (h0 : n ≠ 0)
    (h30 : ¬(30 ≤ n ∧ n ≤ 37)) (h90 : ¬(90 ≤ n ∧ n ≤ 97)) : applyCode f n = f := by
  unfold applyCode
  split <;> first | rfl | omega

theorem applySegment_none (f : FormatState) (part : List Char)
    (h : parseU32 part = none) : applySegment f part = f := by
  unfold applySegment
  rw [h]

/-- C4: the parameter block is split on `;` and applied left to right
(`applySgrParams` is that fold by definition); codes 30..=37 select the
base colors black, red, green, yellow, blue, magenta, cyan, white; codes
90..=97 select grey and the bright colors with white again at 97; any
other numeric code leaves the format unchanged; an unparseable segment is
ignored; `ESC [ 31 m hi` yields the run `"hi"` in red and `ESC [ 91 m hi`
yields it in bright red. -/
theorem c4_sgr_parameters :
    (∀ f : FormatState,
      applyCode f 30 = { f with color := .black } ∧
      applyCode f 31 = { f with color := .red } ∧
      applyCode f 32 = { f with color := .green } ∧
      applyCode f 33 = { f with color := .yellow } ∧
      applyCode f 34 = { f with color := .blue } ∧
      applyCode f 35 = { f with color := .magenta } ∧
      applyCode f 36 = { f with color := .cyan } ∧
      applyCode f 37 = { f with color := .white } ∧
      applyCode f 90 = { f with color := .grey } ∧
      applyCode f 91 = { f with color := .brightRed } ∧
      applyCode f 92 = { f with color := .brightGreen } ∧
      applyCode f 93 = { f with color := .brightYellow } ∧
      applyCode f 94 = { f with color := .brightBlue } ∧
      applyCode f 95 = { f with color := .brightMagenta } ∧
      applyCode f 96 = { f with color := .brightCyan } ∧
      applyCode f 97 = { f with color := .white }) ∧
    (∀ (f : FormatState) (n : Nat), n ≠ 0 → ¬(30 ≤ n ∧ n ≤ 37) → ¬(90 ≤ n ∧ n ≤ 97) →
      applyCode f n = f) ∧
    (∀ (f : FormatState) (part : List Char), parseU32 part = none → applySegment f part = f) ∧
    (∀ (f : FormatState) (cs : List Char),
      applySgrParams f cs = (splitSep ';' cs).foldl applySegment f) ∧
    (append_new_output initialApp [0x1B, 0x5B, 0x33, 0x31, 0x6D, 0x68, 0x69]).runs =
      [⟨[0x68, 0x69], ⟨.red, false⟩⟩] ∧
    (append_new_output initialApp [0x1B, 0x5B, 0x39, 0x31, 0x6D, 0x68, 0x69]).runs =
      [⟨[0x68, 0x69], ⟨.brightRed, false⟩⟩] := by
  refine ⟨?_, applyCode_unknown, applySegment_none, fun f cs => rfl, by decide, by decide⟩
  intro f
  exact ⟨rfl, rfl, rfl, rfl, rfl, rfl, rfl, rfl, rfl, rfl, rfl, rfl, rfl, rfl, rfl, rfl⟩

/-- Witness for C4: an unknown numeric code (42) and an unparseable
segment leave a concrete format state unchanged. -/
theorem c4_sgr_parameters_witness :
    applyCode ⟨Color.blue, false⟩ 42 = ⟨Color.blue, false⟩ ∧
    applySegment ⟨Color.blue, false⟩ ['x'] = ⟨Color.blue, false⟩ :=
  ⟨c4_sgr_parameters.2.1 ⟨Color.blue, false⟩ 42 (by decide) (by decide) (by decide),
   c4_sgr_parameters.2.2.1 ⟨Color.blue, false⟩ ['x'] (by decide)⟩

/-- C5: for every prior format state, `ESC [ 0 m` followed by text sets
the color to the default white slot and underline to off, and the
following text is emitted as a run carrying exactly that reset format. -/
theorem c5_sgr_reset (s : AppState) (h : s.seq_buffer = []) :
    append_new_output s [0x1B, 0x5B, 0x30, 0x6D, 0x78] =
      ⟨⟨.white, false⟩, [], s.runs ++ [⟨[0x78], ⟨.white, false⟩⟩]⟩ := by
  obtain ⟨⟨c, u⟩, q, r⟩ := s
  have hq : q = [] := h
  subst hq
  simp [append_new_output, toP, ofP, processByte, flushPending,
    handleTerminated, utf8Lossy, isAsciiAlpha, applySgrParams, splitSep, applySegment,
    parseU32, digitsToNat, applyCode, dropThroughBracket, isCont, replChar]

/-- Witness for C5: the reset applied from a red, underlined state. -/
theorem c5_sgr_reset_witness :
    append_new_output ⟨⟨Color.red, true⟩, [], []⟩ [0x1B, 0x5B, 0x30, 0x6D, 0x78] =
      ⟨⟨.white, false⟩, [], [] ++ [⟨[0x78], ⟨.white, false⟩⟩]⟩ :=
  c5_sgr_reset ⟨⟨Color.red, true⟩, [], []⟩ rfl

/-- C6: feeding `"a\nb"` with both accumulators empty produces exactly
the three runs `"a"`, `"\n"`, `"b"` in order, each tagged with the format
active at emission; and every CR or LF byte first flushes pending text
and is then appended as its own single-byte run. -/
theorem c6_line_breaks :
    (∀ s : AppState, s.seq_buffer = [] →
      append_new_output s [0x61, 0x0A, 0x62] =
        ⟨s.current_format, [],
          s.runs ++ [⟨[0x61], s.current_format⟩, ⟨[0x0A], s.current_format⟩,
            ⟨[0x62], s.current_format⟩]⟩) ∧
    (∀ (t : ParseState) (b : Nat), b = 0x0A ∨ b = 0x0D →
      processByte t b =
        { flushPending t with
            runs := (flushPending t).runs ++ [⟨[b], (flushPending t).current_format⟩] }) := by
  constructor
  · intro s h
    obtain ⟨⟨c, u⟩, q, r⟩ := s
    have hq : q = [] := h
    subst hq
    simp [append_new_output, toP, ofP, processByte, flushPending, isAsciiAlpha]
  · intro t b hb
    rcases hb with h | h <;> subst h <;>
      simp [processByte]

/-- Witness for C6: the line-break property at the initial app state and
the CR/LF arm at a concrete state and the byte LF. -/
theorem c6_line_breaks_witness :
    append_new_output initialApp [0x61, 0x0A, 0x62] =
      ⟨initialApp.current_format, [],
        initialApp.runs ++ [⟨[0x61], initialApp.current_format⟩,
          ⟨[0x0A], initialApp.current_format⟩, ⟨[0x62], initialApp.current_format⟩]⟩ ∧
    processByte (toP initialApp) 0x0A =
      { flushPending (toP initialApp) with
          runs := (flushPending (toP initialApp)).runs ++
            [⟨[0x0A], (flushPending (toP initialApp)).current_format⟩] } :=
  ⟨c6_line_breaks.1 initialApp rfl, c6_line_breaks.2 (toP initialApp) 0x0A (Or.inl rfl)⟩

/-- C8: for every serialised interleaving of Reader Thread appends and
consumer drains (every lock-protected operation is atomic), the drained
chunks concatenated in drain order, followed by whatever is still
buffered, reconstruct the initial content plus all appended bytes in
order — no byte is lost, duplicated, or reordered, however many drains
occur. -/
theorem c8_exactly_once (ops : List BufOp) (buf : List Nat) :
    ((runOps buf ops).2).flatten ++ (runOps buf ops).1 = buf ++ appendedOf ops := by
  induction ops generalizing buf with
  | nil => simp [runOps, appendedOf]
  | cons op ops ih =>
    cases op with
    | append c =>
      show ((runOps (buf ++ c) ops).2).flatten ++ (runOps (buf ++ c) ops).1 = _
      rw [ih (buf ++ c)]
      simp [appendedOf]
    | drain =>
      show (buf :: (runOps [] ops).2).flatten ++ (runOps [] ops).1 = _
      simp only [List.flatten_cons, List.append_assoc]
      rw [ih []]
      simp [appendedOf]

/-- C10: the final (ordinary-byte) arm of the per-byte match flushes the
sequence buffer as literal text only in dead code — the parser with that
flush removed is the very same function; and the sequence buffer, once
non-empty, is emptied by a byte only when that byte is an ASCII
alphabetic terminator. -/
theorem c10_dead_flush :
    (∀ (s : ParseState) (b : Nat), processByte s b = processByteLive s b) ∧
    (∀ (s : ParseState) (b : Nat), s.seq_buffer ≠ [] →
      (processByte s b).seq_buffer = [] → isAsciiAlpha b = true) := by
  constructor
  · intro s b
    unfold processByte processByteLive
    split_ifs with h1 h2 h3 h4 h5 h6 <;> try rfl
    exact absurd (List.isEmpty_iff.mpr (not_not.mp h4)) h6
  · intro s b hne hres
    rw [processByte_seq] at hres
    unfold stepSeq at hres
    split_ifs at hres with h1 h2 h3 h4
    · exact absurd hres (by simp)
    · exact absurd hres (by simp)
    · exact absurd hres hne
    · exact h4
    · exact absurd hres (by simp)

/-- Witness for C10: a concrete in-progress sequence `ESC` is cleared by
the byte `m`, which is indeed ASCII alphabetic. -/
theorem c10_dead_flush_witness : isAsciiAlpha 0x6D = true :=
  c10_dead_flush.2 ⟨⟨Color.white, false⟩, [0x1B], [], []⟩ 0x6D (by decide) (by decide)

theorem isCont_of_ascii (b : Nat) (hb : b ≤ 0x7F) : isCont b = false := by
  unfold isCont
  have h : ¬(0x80 ≤ b) := by omega
  simp [h]

theorem utf8Second3Ok_of_ascii (a b : Nat) (hb : b ≤ 0x7F) : utf8Second3Ok a b = false := by
  unfold utf8Second3Ok
  split_ifs
  · have h : ¬(0xA0 ≤ b) := by omega
    simp [h]
  · have h : ¬(0x80 ≤ b) := by omega
    simp [h]
  · exact isCont_of_ascii b hb

theorem utf8Second4Ok_of_ascii (a b : Nat) (hb : b ≤ 0x7F) : utf8Second4Ok a b = false := by
  unfold utf8Second4Ok
  split_ifs
  · have h : ¬(0x90 ≤ b) := by omega
    simp [h]
  · have h : ¬(0x80 ≤ b) := by omega
    simp [h]
  · exact isCont_of_ascii b hb

theorem u_nil : utf8Lossy [] = [] := rfl

theorem u_ascii (b : Nat) (l : List Nat) (h : b ≤ 0x7F) :
    utf8Lossy (b :: l) = Char.ofNat b :: utf8Lossy l := by
  rw [utf8Lossy.eq_def]; simp [h]

theorem u_2_nil (b : Nat) (h1 : ¬b ≤ 0x7F) (h2 : 0xC2 ≤ b ∧ b ≤ 0xDF) :
    utf8Lossy [b] = [replChar] := by
  rw [utf8Lossy.eq_def]; simp [h1, h2]

theorem u_2_ok (b b2 : Nat) (l : List Nat) (h1 : ¬b ≤ 0x7F) (h2 : 0xC2 ≤ b ∧ b ≤ 0xDF)
    (hc : isCont b2 = true) :
    utf8Lossy (b :: b2 :: l) = Char.ofNat ((b - 0xC0) * 0x40 + (b2 - 0x80)) :: utf8Lossy l := by
  rw [utf8Lossy.eq_def]; simp [h1, h2, hc]

theorem u_2_bad (b b2 : Nat) (l : List Nat) (h1 : ¬b ≤ 0x7F) (h2 : 0xC2 ≤ b ∧ b ≤ 0xDF)
    (hc : isCont b2 = false) :
    utf8Lossy (b :: b2 :: l) = replChar :: utf8Lossy (b2 :: l) := by
  rw [utf8Lossy.eq_def]; simp [h1, h2, hc]

theorem u_3_nil (b : Nat) (h1 : ¬b ≤ 0x7F) (h2 : ¬(0xC2 ≤ b ∧ b ≤ 0xDF))
    (h3 : 0xE0 ≤ b ∧ b ≤ 0xEF) : utf8Lossy [b] = [replChar] := by
  rw [utf8Lossy.eq_def]; simp [h1, h2, h3]

theorem u_3_sbad (b b2 : Nat) (l : List Nat) (h1 : ¬b ≤ 0x7F) (h2 : ¬(0xC2 ≤ b ∧ b ≤ 0xDF))
    (h3 : 0xE0 ≤ b ∧ b ≤ 0xEF) (hok : utf8Second3Ok b b2 = false) :
    utf8Lossy (b :: b2 :: l) = replChar :: utf8Lossy (b2 :: l) := by
  rw [utf8Lossy.eq_def]; simp [h1, h2, h3, hok]

theorem u_3_ok_nil (b b2 : Nat) (h1 : ¬b ≤ 0x7F) (h2 : ¬(0xC2 ≤ b ∧ b ≤ 0xDF))
    (h3 : 0xE0 ≤ b ∧ b ≤ 0xEF) (hok : utf8Second3Ok b b2 = true) :
    utf8Lossy [b, b2] = [replChar] := by
  rw [utf8Lossy.eq_def]; simp [h1, h2, h3, hok]

theorem u_3_good (b b2 b3 : Nat) (l : List Nat) (h1 : ¬b ≤ 0x7F) (h2 : ¬(0xC2 ≤ b ∧ b ≤ 0xDF))
    (h3 : 0xE0 ≤ b ∧ b ≤ 0xEF) (hok : utf8Second3Ok b b2 = true) (hc3 : isCont b3 = true) :
    utf8Lossy (b :: b2 :: b3 :: l) =
      Char.ofNat ((b - 0xE0) * 0x1000 + (b2 - 0x80) * 0x40 + (b3 - 0x80)) :: utf8Lossy l := by
  rw [utf8Lossy.eq_def]; simp [h1, h2, h3, hok, hc3]

theorem u_3_tbad (b b2 b3 : Nat) (l : List Nat) (h1 : ¬b ≤ 0x7F) (h2 : ¬(0xC2 ≤ b ∧ b ≤ 0xDF))
    (h3 : 0xE0 ≤ b ∧ b ≤ 0xEF) (hok : utf8Second3Ok b b2 = true) (hc3 : isCont b3 = false) :
    utf8Lossy (b :: b2 :: b3 :: l) = replChar :: utf8Lossy (b3 :: l) := by
  rw [utf8Lossy.eq_def]; simp [h1, h2, h3, hok, hc3]

theorem u_4_nil (b : Nat) (h1 : ¬b ≤ 0x7F) (h2 : ¬(0xC2 ≤ b ∧ b ≤ 0xDF))
    (h3 : ¬(0xE0 ≤ b ∧ b ≤ 0xEF)) (h4 : 0xF0 ≤ b ∧ b ≤ 0xF4) :
    utf8Lossy [b] = [replChar] := by
  rw [utf8Lossy.eq_def]; simp [h1, h2, h3, h4]

theorem u_4_sbad (b b2 : Nat) (l : List Nat) (h1 : ¬b ≤ 0x7F) (h2 : ¬(0xC2 ≤ b ∧ b ≤ 0xDF))
    (h3 : ¬(0xE0 ≤ b ∧ b ≤ 0xEF)) (h4 : 0xF0 ≤ b ∧ b ≤ 0xF4)
    (hok : utf8Second4Ok b b2 = false) :
    utf8Lossy (b :: b2 :: l) = replChar :: utf8Lossy (b2 :: l) := by
  rw [utf8Lossy.eq_def]; simp [h1, h2, h3, h4, hok]

theorem u_4_ok_nil (b b2 : Nat) (h1 : ¬b ≤ 0x7F) (h2 : ¬(0xC2 ≤ b ∧ b ≤ 0xDF))
    (h3 : ¬(0xE0 ≤ b ∧ b ≤ 0xEF)) (h4 : 0xF0 ≤ b ∧ b ≤ 0xF4)
    (hok : utf8Second4Ok b b2 = true) : utf8Lossy [b, b2] = [replChar] := by
  rw [utf8Lossy.eq_def]; simp [h1, h2, h3, h4, hok]

theorem u_4_tbad (b b2 b3 : Nat) (l : List Nat) (h1 : ¬b ≤ 0x7F) (h2 : ¬(0xC2 ≤ b ∧ b ≤ 0xDF))
    (h3 : ¬(0xE0 ≤ b ∧ b ≤ 0xEF)) (h4 : 0xF0 ≤ b ∧ b ≤ 0xF4)
    (hok : utf8Second4Ok b b2 = true) (hc3 : isCont b3 = false) :
    utf8Lossy (b :: b2 :: b3 :: l) = replChar :: utf8Lossy (b3 :: l) := by
  rw [utf8Lossy.eq_def]; simp [h1, h2, h3, h4, hok, hc3]

theorem u_4_ok3_nil (b b2 b3 : Nat) (h1 : ¬b ≤ 0x7F) (h2 : ¬(0xC2 ≤ b ∧ b ≤ 0xDF))
    (h3 : ¬(0xE0 ≤ b ∧ b ≤ 0xEF)) (h4 : 0xF0 ≤ b ∧ b ≤ 0xF4)
    (hok : utf8Second4Ok b b2 = true) (hc3 : isCont b3 = true) :
    utf8Lossy [b, b2, b3] = [replChar] := by
  rw [utf8Lossy.eq_def]; simp [h1, h2, h3, h4, hok, hc3]

theorem u_4_good (b b2 b3 b4 : Nat) (l : List Nat) (h1 : ¬b ≤ 0x7F)
    (h2 : ¬(0xC2 ≤ b ∧ b ≤ 0xDF)) (h3 : ¬(0xE0 ≤ b ∧ b ≤ 0xEF)) (h4 : 0xF0 ≤ b ∧ b ≤ 0xF4)
    (hok : utf8Second4Ok b b2 = true) (hc3 : isCont b3 = true) (hc4 : isCont b4 = true) :
    utf8Lossy (b :: b2 :: b3 :: b4 :: l) =
      Char.ofNat ((b - 0xF0) * 0x40000 + (b2 - 0x80) * 0x1000 + (b3 - 0x80) * 0x40 + (b4 - 0x80))
        :: utf8Lossy l := by
  rw [utf8Lossy.eq_def]; simp [h1, h2, h3, h4, hok, hc3, hc4]

theorem u_4_fbad (b b2 b3 b4 : Nat) (l : List Nat) (h1 : ¬b ≤ 0x7F)
    (h2 : ¬(0xC2 ≤ b ∧ b ≤ 0xDF)) (h3 : ¬(0xE0 ≤ b ∧ b ≤ 0xEF)) (h4 : 0xF0 ≤ b ∧ b ≤ 0xF4)
    (hok : utf8Second4Ok b b2 = true) (hc3 : isCont b3 = true) (hc4 : isCont b4 = false) :
    utf8Lossy (b :: b2 :: b3 :: b4 :: l) = replChar :: utf8Lossy (b4 :: l) := by
  rw [utf8Lossy.eq_def]; simp [h1, h2, h3, h4, hok, hc3, hc4]

theorem u_inv (b : Nat) (l : List Nat) (h1 : ¬b ≤ 0x7F) (h2 : ¬(0xC2 ≤ b ∧ b ≤ 0xDF))
    (h3 : ¬(0xE0 ≤ b ∧ b ≤ 0xEF)) (h4 : ¬(0xF0 ≤ b ∧ b ≤ 0xF4)) :
    utf8Lossy (b :: l) = replChar :: utf8Lossy l := by
  rw [utf8Lossy.eq_def]; simp [h1, h2, h3, h4]

theorem utf8Lossy_append_ascii (b : Nat) (hb : b ≤ 0x7F) :
    ∀ bs : List Nat, utf8Lossy (bs ++ [b]) = utf8Lossy bs ++ [Char.ofNat b] := by
  have key : ∀ (n : Nat) (bs : List Nat), bs.length ≤ n →
      utf8Lossy (bs ++ [b]) = utf8Lossy bs ++ [Char.ofNat b] := by
    intro n
    induction n with
    | zero =>
      intro bs hlen
      have hbs : bs = [] := List.length_eq_zero.mp (Nat.le_zero.mp hlen)
      subst hbs
      simp [u_nil, u_ascii b [] hb]
    | succ n ih =>
      intro bs hlen
      match bs with
      | [] => simp [u_nil, u_ascii b [] hb]
      | b1 :: rest =>
        have hr : rest.length ≤ n := by simp at hlen; omega
        simp only [List.cons_append]
        by_cases h1 : b1 ≤ 0x7F
        · rw [u_ascii b1 _ h1, u_ascii b1 _ h1, ih rest hr]
          simp
        · by_cases h2 : 0xC2 ≤ b1 ∧ b1 ≤ 0xDF
          · match rest with
            | [] =>
              rw [show ([] : List Nat) ++ [b] = [b] from rfl, u_2_bad b1 b [] h1 h2
                (isCont_of_ascii b hb), u_2_nil b1 h1 h2, u_ascii b [] hb, u_nil]; rfl

            | b2 :: rest2 =>
              simp only [List.cons_append]
              have hr2 : rest2.length ≤ n := by simp at hlen; omega
              by_cases hc : isCont b2 = true
              · rw [u_2_ok b1 b2 _ h1 h2 hc, u_2_ok b1 b2 _ h1 h2 hc, ih rest2 hr2]
                simp
              · rw [Bool.not_eq_true] at hc
                have ihx := ih (b2 :: rest2) hr
                simp only [List.cons_append] at ihx
                rw [u_2_bad b1 b2 _ h1 h2 hc, u_2_bad b1 b2 _ h1 h2 hc, ihx]
                simp
          · by_cases h3 : 0xE0 ≤ b1 ∧ b1 ≤ 0xEF
            · match rest with
              | [] =>
                rw [show ([] : List Nat) ++ [b] = [b] from rfl, u_3_sbad b1 b [] h1 h2 h3
                  (utf8Second3Ok_of_ascii b1 b hb), u_3_nil b1 h1 h2 h3, u_ascii b [] hb, u_nil]; rfl

              | b2 :: rest2 =>
                simp only [List.cons_append]
                have hr2 : rest2.length ≤ n := by simp at hlen; omega
                by_cases hok : utf8Second3Ok b1 b2 = true
                · match rest2 with
                  | [] =>
                    rw [show ([] : List Nat) ++ [b] = [b] from rfl,
                      u_3_tbad b1 b2 b [] h1 h2 h3 hok (isCont_of_ascii b hb),
                      u_3_ok_nil b1 b2 h1 h2 h3 hok, u_ascii b [] hb, u_nil]; rfl

                  | b3 :: rest3 =>
                    simp only [List.cons_append]
                    have hr3 : rest3.length ≤ n := by simp at hlen; omega
                    by_cases hc3 : isCont b3 = true
                    · rw [u_3_good b1 b2 b3 _ h1 h2 h3 hok hc3,
                        u_3_good b1 b2 b3 _ h1 h2 h3 hok hc3, ih rest3 hr3]
                      simp
                    · rw [Bool.not_eq_true] at hc3
                      have ihx := ih (b3 :: rest3) hr2
                      simp only [List.cons_append] at ihx
                      rw [u_3_tbad b1 b2 b3 _ h1 h2 h3 hok hc3,
                        u_3_tbad b1 b2 b3 _ h1 h2 h3 hok hc3, ihx]
                      simp
                · rw [Bool.not_eq_true] at hok
                  have ihx := ih (b2 :: rest2) hr
                  simp only [List.cons_append] at ihx
                  rw [u_3_sbad b1 b2 _ h1 h2 h3 hok, u_3_sbad b1 b2 _ h1 h2 h3 hok, ihx]
                  simp
            · by_cases h4 : 0xF0 ≤ b1 ∧ b1 ≤ 0xF4
              · match rest with
                | [] =>
                  rw [show ([] : List Nat) ++ [b] = [b] from rfl, u_4_sbad b1 b [] h1 h2 h3 h4
                    (utf8Second4Ok_of_ascii b1 b hb), u_4_nil b1 h1 h2 h3 h4, u_ascii b [] hb,
                    u_nil]; rfl
                | b2 :: rest2 =>
                  simp only [List.cons_append]
                  have hr2 : rest2.length ≤ n := by simp at hlen; omega
                  by_cases hok : utf8Second4Ok b1 b2 = true
                  · match rest2 with
                    | [] =>
                      rw [show ([] : List Nat) ++ [b] = [b] from rfl,
                        u_4_tbad b1 b2 b [] h1 h2 h3 h4 hok (isCont_of_ascii b hb),
                        u_4_ok_nil b1 b2 h1 h2 h3 h4 hok, u_ascii b [] hb, u_nil]; rfl

                    | b3 :: rest3 =>
                      simp only [List.cons_append]
                      have hr3 : rest3.length ≤ n := by simp at hlen; omega
                      by_cases hc3 : isCont b3 = true
                      · match rest3 with
                        | [] =>
                          rw [show ([] : List Nat) ++ [b] = [b] from rfl,
                            u_4_fbad b1 b2 b3 b [] h1 h2 h3 h4 hok hc3 (isCont_of_ascii b hb),
                            u_4_ok3_nil b1 b2 b3 h1 h2 h3 h4 hok hc3, u_ascii b [] hb, u_nil]; rfl

                        | b4 :: rest4 =>
                          simp only [List.cons_append]
                          have hr4 : rest4.length ≤ n := by simp at hlen; omega
                          by_cases hc4 : isCont b4 = true
                          · rw [u_4_good b1 b2 b3 b4 _ h1 h2 h3 h4 hok hc3 hc4,
                              u_4_good b1 b2 b3 b4 _ h1 h2 h3 h4 hok hc3 hc4, ih rest4 hr4]
                            simp
                          · rw [Bool.not_eq_true] at hc4
                            have ihx := ih (b4 :: rest4) hr3
                            simp only [List.cons_append] at ihx
                            rw [u_4_fbad b1 b2 b3 b4 _ h1 h2 h3 h4 hok hc3 hc4,
                              u_4_fbad b1 b2 b3 b4 _ h1 h2 h3 h4 hok hc3 hc4, ihx]
                            simp
                      · rw [Bool.not_eq_true] at hc3
                        have ihx := ih (b3 :: rest3) hr2
                        simp only [List.cons_append] at ihx
                        rw [u_4_tbad b1 b2 b3 _ h1 h2 h3 h4 hok hc3,
                          u_4_tbad b1 b2 b3 _ h1 h2 h3 h4 hok hc3, ihx]
                        simp
                  · rw [Bool.not_eq_true] at hok
                    have ihx := ih (b2 :: rest2) hr
                    simp only [List.cons_append] at ihx
                    rw [u_4_sbad b1 b2 _ h1 h2 h3 h4 hok, u_4_sbad b1 b2 _ h1 h2 h3 h4 hok, ihx]
                    simp
              · rw [u_inv b1 _ h1 h2 h3 h4, u_inv b1 _ h1 h2 h3 h4, ih rest hr]
                simp
  exact fun bs => key bs.length bs le_rfl

theorem isAsciiAlpha_le (b : Nat) (h : isAsciiAlpha b = true) : b ≤ 0x7F := by
  unfold isAsciiAlpha at h
  simp at h
  omega

theorem char_ofNat_toNat (n : Nat) (h : Nat.isValidChar n) : (Char.ofNat n).toNat = n := by
  unfold Char.ofNat
  rw [dif_pos h]
  rfl

theorem char_ofNat_ne_m (b : Nat) (hb : b ≤ 0x7F) (hm : b ≠ 0x6D) : Char.ofNat b ≠ 'm' := by
  intro h
  apply hm
  have hv : Nat.isValidChar b := Or.inl (by omega)
  have := char_ofNat_toNat b hv
  rw [h] at this
  exact this.symm

theorem handleTerminated_not_m (f : FormatState) (bs : List Nat) (b : Nat)
    (hb : b ≤ 0x7F) (hm : b ≠ 0x6D) : handleTerminated f (bs ++ [b]) = f := by
  unfold handleTerminated
  rw [utf8Lossy_append_ascii b hb bs]
  simp [List.getLast?_concat, char_ofNat_ne_m b hb hm]

theorem processByte_seqPush (t : ParseState) (b : Nat) (hq : t.seq_buffer ≠ [])
    (h27 : b ≠ 0x1B) (hnl : ¬(b = 0x0A ∨ b = 0x0D)) (ha : isAsciiAlpha b = false) :
    processByte t b = { t with seq_buffer := t.seq_buffer ++ [b] } := by
  unfold processByte
  split_ifs with h1 h2 h3
  · exact absurd h1 h27
  · rfl
  · simp [ha] at h3
  · rfl

theorem processByte_terminator (t : ParseState) (b : Nat) (hq : t.seq_buffer ≠ [])
    (ha : isAsciiAlpha b = true) :
    processByte t b =
      { t with current_format := handleTerminated t.current_format (t.seq_buffer ++ [b]),
               seq_buffer := [] } := by
  unfold processByte
  split_ifs with h1 h2 h3
  · rw [h1] at ha
    simp [isAsciiAlpha] at ha
  · rw [h2.1] at ha
    simp [isAsciiAlpha] at ha
  · rcases h3 with h | h <;> rw [h] at ha <;> simp [isAsciiAlpha] at ha
  · rfl

theorem foldl_seqPush (mid : List Nat)
    (hmid : ∀ x ∈ mid, x ≠ 0x1B ∧ ¬(x = 0x0A ∨ x = 0x0D) ∧ isAsciiAlpha x = false) :
    ∀ t : ParseState, t.seq_buffer ≠ [] →
      mid.foldl processByte t = { t with seq_buffer := t.seq_buffer ++ mid } := by
  induction mid with
  | nil =>
    intro t _
    cases t
    simp
  | cons x mid ih =>
    intro t ht
    obtain ⟨h27, hnl, ha⟩ := hmid x (by simp)
    rw [List.foldl_cons, processByte_seqPush t x ht h27 hnl ha,
      ih (fun y hy => hmid y (by simp [hy])) _ (by simp)]
    cases t
    simp

/-- C3: any escape sequence whose first ASCII alphabetic byte, the
terminator, is not `m` — CSI or not, with arbitrary non-alphabetic,
non-ESC, non-CR/LF interior bytes — is consumed whole with no effect:
the parser state (format, buffers, runs) afterwards is exactly as if the
sequence had never been fed, so following text produces exactly the runs
it would produce on its own. -/
theorem c3_unsupported_sequences (s : AppState) (mid : List Nat) (t : Nat) (rest : List Nat)
    (hs : s.seq_buffer = [])
    (hmid : ∀ x ∈ mid, x ≠ 0x1B ∧ ¬(x = 0x0A ∨ x = 0x0D) ∧ isAsciiAlpha x = false)
    (ht : isAsciiAlpha t = true) (htm : t ≠ 0x6D) :
    append_new_output s (0x1B :: (mid ++ t :: rest)) = append_new_output s rest := by
  obtain ⟨f, q, r⟩ := s
  have hq : q = [] := hs
  subst hq
  show ofP (flushPending (List.foldl processByte ⟨f, [], [], r⟩ (0x1B :: (mid ++ t :: rest)))) = _
  rw [List.foldl_cons]
  have h1 : processByte ⟨f, [], [], r⟩ 0x1B = ⟨f, [0x1B], [], r⟩ := rfl
  rw [h1, List.foldl_append, foldl_seqPush mid hmid ⟨f, [0x1B], [], r⟩ (by simp),
    List.foldl_cons]
  have h2 := processByte_terminator ⟨f, 0x1B :: mid, [], r⟩ t (by simp) ht
  rw [show ({ (⟨f, [0x1B], [], r⟩ : ParseState) with
      seq_buffer := [0x1B] ++ mid }) = (⟨f, 0x1B :: mid, [], r⟩ : ParseState) from rfl, h2]
  rw [show ({ (⟨f, 0x1B :: mid, [], r⟩ : ParseState) with
      current_format := handleTerminated f ((0x1B :: mid) ++ [t]), seq_buffer := [] })
      = (⟨handleTerminated f ((0x1B :: mid) ++ [t]), [], [], r⟩ : ParseState) from rfl]
  rw [handleTerminated_not_m f (0x1B :: mid) t (isAsciiAlpha_le t ht) htm]
  rfl

/-- Witness for C3: the unsupported sequence `ESC [ 2 J` followed by
`"ok"` leaves exactly the state of feeding `"ok"` alone, from the initial
app state. -/
theorem c3_unsupported_sequences_witness :
    append_new_output initialApp (0x1B :: ([0x5B, 0x32] ++ 0x4A :: [0x6F, 0x6B])) =
      append_new_output initialApp [0x6F, 0x6B] :=
  c3_unsupported_sequences initialApp [0x5B, 0x32] 0x4A [0x6F, 0x6B] rfl
    (by decide) (by decide) (by decide)

theorem utf8Lossy_single_invalid (b : Nat) (hb : 0x80 ≤ b) : utf8Lossy [b] = [replChar] := by
  by_cases h2 : 0xC2 ≤ b ∧ b ≤ 0xDF
  · exact u_2_nil b (by omega) h2
  · by_cases h3 : 0xE0 ≤ b ∧ b ≤ 0xEF
    · exact u_3_nil b (by omega) h2 h3
    · by_cases h4 : 0xF0 ≤ b ∧ b ≤ 0xF4
      · exact u_4_nil b (by omega) h2 h3 h4
      · rw [u_inv b [] (by omega) h2 h3 h4, u_nil]

/-- C7: the parser is total and failure-free — every state and byte take
exactly one of the six defined transitions of the per-byte machine; an
SGR code outside 0, 30..=37, 90..=97 leaves the format unchanged; an
unparseable parameter segment is skipped; and a lone non-ASCII byte is
decoded to the replacement character rather than failing. -/
theorem c7_parser_totality :
    (∀ (s : ParseState) (b : Nat), ByteStep s b (processByte s b)) ∧
    (∀ (f : FormatState) (n : Nat), n ≠ 0 → ¬(30 ≤ n ∧ n ≤ 37) → ¬(90 ≤ n ∧ n ≤ 97) →
      applyCode f n = f) ∧
    (∀ (f : FormatState) (part : List Char), parseU32 part = none → applySegment f part = f) ∧
    (∀ b : Nat, 0x80 ≤ b → utf8Lossy [b] = [replChar]) := by
  refine ⟨?_, applyCode_unknown, applySegment_none, utf8Lossy_single_invalid⟩
  intro s b
  unfold processByte
  split_ifs with h1 h2 h3 h4 h5 h6
  · subst h1
    exact ByteStep.esc s
  · obtain ⟨hb91, hlast⟩ := h2
    subst hb91
    exact ByteStep.csi s hlast
  · exact ByteStep.lineBreak s b h3
  · exact ByteStep.seqEnd s b h1 h2 h3 h4 h5
  · exact ByteStep.seqPush s b h1 h2 h3 h4 (by simpa using h5)
  · exact ByteStep.plain s b h1 h3 (not_not.mp h4)
  · exact absurd (List.isEmpty_iff.mpr (not_not.mp h4)) h6

/-- Witness for C7: concrete instances — the transition taken by byte
`A` from the initial state, code 7 and segment `"?"` as no-ops, and the
lone byte 0xFF decoding to the replacement character. -/
theorem c7_parser_totality_witness :
    ByteStep (toP initialApp) 0x41 (processByte (toP initialApp) 0x41) ∧
    applyCode ⟨Color.green, false⟩ 7 = ⟨Color.green, false⟩ ∧
    applySegment ⟨Color.green, false⟩ ['?'] = ⟨Color.green, false⟩ ∧
    utf8Lossy [0xFF] = [replChar] :=
  ⟨c7_parser_totality.1 (toP initialApp) 0x41,
   c7_parser_totality.2.1 ⟨Color.green, false⟩ 7 (by decide) (by decide) (by decide),
   c7_parser_totality.2.2.1 ⟨Color.green, false⟩ ['?'] (by decide),
   c7_parser_totality.2.2.2 0xFF (by decide)⟩

theorem applyCode_underline (f : FormatState) (n : Nat) (h : f.underline = false) :
    (applyCode f n).underline = false := by
  unfold applyCode
  split <;> simp_all

theorem foldl_applySegment_underline (ps : List (List Char)) :
    ∀ f : FormatState, f.underline = false → (ps.foldl applySegment f).underline = false := by
  induction ps with
  | nil => intro f h; exact h
  | cons p ps ih =>
    intro f h
    apply ih
    unfold applySegment
    cases parseU32 p with
    | none => exact h
    | some n => exact applyCode_underline f n h

theorem handleTerminated_underline (f : FormatState) (buf : List Nat)
    (h : f.underline = false) : (handleTerminated f buf).underline = false := by
  unfold handleTerminated
  dsimp only
  split_ifs with hm
  · split
    · exact foldl_applySegment_underline _ f h
    · exact h
  · exact h

theorem underFree_flush (t : ParseState) (h : underFree t) : underFree (flushPending t) := by
  unfold flushPending
  split_ifs with hp
  · exact h
  · refine ⟨h.1, ?_⟩
    intro x hx
    simp at hx
    rcases hx with hx | hx
    · exact h.2 x hx
    · rw [hx]
      exact h.1

theorem underFree_processByte (t : ParseState) (b : Nat) (h : underFree t) :
    underFree (processByte t b) := by
  unfold processByte
  split_ifs with h1 h2 h3 h4 h5 h6
  · exact ⟨(underFree_flush t h).1, (underFree_flush t h).2⟩
  · exact ⟨h.1, h.2⟩
  · have hf := underFree_flush t h
    refine ⟨hf.1, ?_⟩
    intro x hx
    simp at hx
    rcases hx with hx | hx
    · exact hf.2 x hx
    · rw [hx]
      exact hf.1
  · exact ⟨handleTerminated_underline _ _ h.1, h.2⟩
  · exact ⟨h.1, h.2⟩
  · exact ⟨h.1, h.2⟩
  · exact absurd (List.isEmpty_iff.mpr (not_not.mp h4)) h6

theorem underFree_foldl (c : List Nat) :
    ∀ t : ParseState, underFree t → underFree (c.foldl processByte t) := by
  induction c with
  | nil => intro t h; exact h
  | cons b c ih => intro t h; exact ih _ (underFree_processByte t b h)

theorem underFree_chunksP (cs : List (List Nat)) :
    ∀ t : ParseState, underFree t → underFree (chunksP t cs) := by
  induction cs with
  | nil => intro t h; exact h
  | cons c cs ih =>
    intro t h
    exact ih (tickP t c) (underFree_flush _ (underFree_foldl c t h))

/-- C9: underline is never enabled — starting from the initial app state
(underline off), after any sequence of ticks with any byte chunks, the
current format still has underline off and every emitted run carries
underline off; no SGR code (in particular not code 4) ever switches it
on, since code 0 is the only code touching underline and it clears it. -/
theorem c9_underline_never (cs : List (List Nat)) :
    (feedChunks initialApp cs).current_format.underline = false ∧
    ∀ x ∈ (feedChunks initialApp cs).runs, x.fmt.underline = false := by
  have h : underFree (chunksP (toP initialApp) cs) :=
    underFree_chunksP cs (toP initialApp)
      ⟨rfl, by intro x hx; simp [toP, initialApp] at hx⟩
  have hb := feedChunks_bridge cs initialApp
  constructor
  · have hfmt : (toP (feedChunks initialApp cs)).current_format.underline = false := by
      rw [hb]; exact h.1
    exact hfmt
  · intro x hx
    have hmem : x ∈ (toP (feedChunks initialApp cs)).runs := hx
    rw [hb] at hmem
    exact h.2 x hmem

end YATE
